import Mathlib

/-!
Verification of the team-formation engine of the hacksphere repository.

The definitions below are a shallow embedding of
`src/utils/team_formations/team_formations.py`.  Participants are the rows
of the preprocessed dataframe (after `preprocess_data`): skills and
interests are normalized token lists, `ExperienceLevel` is mapped to the
naturals 1..3 (unknowns default to 2) and `PersonalityTrait` is label
encoded to a natural number.  Scores are real numbers because `np.std`
takes a real square root; every other quantity is exact.

The k-means call of `assign_groups` is an external sklearn collaborator;
it is embedded as an arbitrary labelling function `cl : ℕ → ℕ` from row
positions to cluster labels.  The argmax of `compute_weighted_score` over
the candidate combinations of a cluster is embedded as a selection
function `pick` that is only assumed to return one of the enumerated
candidates (`PickSound`); which candidate wins depends on floating-point
comparisons, and none of the assignment-level claims depend on it.
-/

namespace TeamFormations

/-- Row of the preprocessed dataframe produced by `preprocess_data`. -/
structure Participant where
  skills : List String
  interests : List String
  experience : ℕ
  personality : ℕ

/-- Project requirement dictionary read from the JSON config
(`num_teams`, `team_size`, `required_skills`, `preferred_interests`). -/
structure ProjectRequirement where
  num_teams : ℕ
  team_size : ℕ
  required_skills : List String
  preferred_interests : List String

/-- Lookup `data.loc[idx]` by row position (total, with a default row;
all uses in the claims are at in-range positions). -/
def getP (data : List Participant) (i : ℕ) : Participant :=
  data.getD i ⟨[], [], 0, 0⟩

/-- Line 73: `[s.strip() for s in project_requirements.get('required_skills', []) if str(s).strip()]`. -/
def required_skills_clean (req : ProjectRequirement) : List String :=
  (req.required_skills.map String.trim).filter (fun s => decide (s ≠ ""))

/-- Line 81: the analogous cleanup of `preferred_interests`. -/
def preferred_interests_clean (req : ProjectRequirement) : List String :=
  (req.preferred_interests.map String.trim).filter (fun s => decide (s ≠ ""))

/-- Lines 74-76: `team_skills` accumulated with `set().update` over the team. -/
def team_skills (data : List Participant) (team : List ℕ) : Finset String :=
  team.foldl (fun acc i => acc ∪ (getP data i).skills.toFinset) ∅

/-- Lines 82-84: `team_interests` accumulated with `set().update` over the team. -/
def team_interests (data : List Participant) (team : List ℕ) : Finset String :=
  team.foldl (fun acc i => acc ∪ (getP data i).interests.toFinset) ∅

/-- Line 77: `len(set(required_skills).intersection(team_skills)) / len(required_skills)
if required_skills else 0`.  The denominator is the length of the cleaned list. -/
noncomputable def skill_match (team : List ℕ) (req : ProjectRequirement)
    (data : List Participant) : ℝ :=
  if required_skills_clean req ≠ [] then
    (((required_skills_clean req).toFinset ∩ team_skills data team).card : ℝ) /
      (required_skills_clean req).length
  else 0

/-- Lines 85-88: the interest term, same shape as the skill term. -/
noncomputable def interest_match (team : List ℕ) (req : ProjectRequirement)
    (data : List Participant) : ℝ :=
  if preferred_interests_clean req ≠ [] then
    (((preferred_interests_clean req).toFinset ∩ team_interests data team).card : ℝ) /
      (preferred_interests_clean req).length
  else 0

/-- Line 92: `data.loc[list(team), 'ExperienceLevel']` as real numbers. -/
noncomputable def exp_scores (team : List ℕ) (data : List Participant) : List ℝ :=
  team.map (fun i => ((getP data i).experience : ℝ))

/-- The `np.mean` of a list of reals (0 for the empty list, by `x / 0 = 0`). -/
noncomputable def np_mean (l : List ℝ) : ℝ := l.sum / l.length

/-- The `np.std` of a list of reals: population standard deviation (ddof = 0). -/
noncomputable def np_std (l : List ℝ) : ℝ :=
  Real.sqrt ((l.map (fun x => (x - np_mean l) ^ 2)).sum / l.length)

open Classical in
/-- Lines 93-97: the experience-balance term, guarded by
`len(exp_scores) > 1 and np.mean(exp_scores) > 0` and clamped to [0, 1]. -/
noncomputable def exp_balance (team : List ℕ) (data : List Participant) : ℝ :=
  if 1 < (exp_scores team data).length ∧ 0 < np_mean (exp_scores team data) then
    max 0 (min 1 (1 - np_std (exp_scores team data) / np_mean (exp_scores team data)))
  else 0

/-- Lines 101-102: `len(set(personalities)) / len(personalities) if personalities.size > 0 else 0`. -/
noncomputable def personality_diversity (team : List ℕ) (data : List Participant) : ℝ :=
  if 0 < team.length then
    (((team.map (fun i => (getP data i).personality)).toFinset.card : ℝ)) / team.length
  else 0

/-- Lines 67-105: `compute_weighted_score`, the weighted sum of the four terms
with the fixed weights 0.4, 0.3, 0.2, 0.1. -/
noncomputable def compute_weighted_score (team : List ℕ) (req : ProjectRequirement)
    (data : List Participant) : ℝ :=
  0.4 * skill_match team req data + 0.3 * interest_match team req data
    + 0.2 * exp_balance team data + 0.1 * personality_diversity team data

/-- Spec-side formula (spec 4.3, for the C2 refinement): skill match as a
fraction over the set of required skills, 0 when that set is empty. -/
noncomputable def spec_skill_match (team : List ℕ) (req : ProjectRequirement)
    (data : List Participant) : ℝ :=
  if (required_skills_clean req).toFinset ≠ ∅ then
    (((required_skills_clean req).toFinset ∩ team_skills data team).card : ℝ) /
      (required_skills_clean req).toFinset.card
  else 0

/-- Spec-side formula (spec 4.3): interest match over the set of preferred interests. -/
noncomputable def spec_interest_match (team : List ℕ) (req : ProjectRequirement)
    (data : List Participant) : ℝ :=
  if (preferred_interests_clean req).toFinset ≠ ∅ then
    (((preferred_interests_clean req).toFinset ∩ team_interests data team).card : ℝ) /
      (preferred_interests_clean req).toFinset.card
  else 0

open Classical in
/-- Spec-side formula (spec 4.3): experience balance is
`clamp(1 - population_stdev(experience) / mean(experience), 0, 1)`,
defined as 0 when team size is at most 1 or the mean is 0. -/
noncomputable def spec_exp_balance (team : List ℕ) (data : List Participant) : ℝ :=
  if team.length ≤ 1 ∨ np_mean (exp_scores team data) = 0 then 0
  else max 0 (min 1 (1 - np_std (exp_scores team data) / np_mean (exp_scores team data)))

/-- Spec-side formula (spec 4.3): the number of distinct personality labels
in the team divided by the team size. -/
noncomputable def spec_personality_diversity (team : List ℕ) (data : List Participant) : ℝ :=
  ((team.map (fun i => (getP data i).personality)).toFinset.card : ℝ) / team.length

/-- Line 111: `num_groups = max(1, min(num_teams, len(data)))` -- the requested
team count clamped to `[1, cohort_size]`. -/
def num_groups (req : ProjectRequirement) (n : ℕ) : ℕ :=
  max 1 (min req.num_teams n)

/-- Line 121: `data[data['InitialCluster'] == cluster].index` -- the row
positions the clustering labelled `c`, in dataframe order. -/
def cluster_members (cl : ℕ → ℕ) (n c : ℕ) : List ℕ :=
  (List.range n).filter (fun i => decide (cl i = c))

/-- Line 126: `combinations(cluster_indices, min(team_size, len(cluster_indices)))`:
all subsequences of the given length, exactly the tuples `itertools.combinations`
enumerates. -/
def cluster_candidates (members : List ℕ) (team_size : ℕ) : List (List ℕ) :=
  List.sublistsLen (min team_size members.length) members

/-- Lines 119-132: one chosen team per cluster.  `pick` stands for the
score-argmax loop (lines 122-130); every iteration keeps a member of the
candidate list, so the loop is a sound selection in the sense of `PickSound`. -/
def chosen_teams (pick : List (List ℕ) → List ℕ) (cl : ℕ → ℕ)
    (req : ProjectRequirement) (n : ℕ) : List (List ℕ) :=
  (List.range (num_groups req n)).map
    (fun c => pick (cluster_candidates (cluster_members cl n c) req.team_size))

/-- One step of line 138: `teams[j].append(x)`. -/
def append_at : List (List ℕ) → ℕ → ℕ → List (List ℕ)
  | [], _, _ => []
  | t :: ts, 0, x => (t ++ [x]) :: ts
  | t :: ts, j + 1, x => t :: append_at ts j x

/-- Lines 137-138: `for i, idx in enumerate(unassigned): teams[i % len(teams)].append(idx)`. -/
def distribute_overflow : List (List ℕ) → ℕ → List ℕ → List (List ℕ)
  | teams, _, [] => teams
  | teams, i, x :: xs => distribute_overflow (append_at teams (i % teams.length) x) (i + 1) xs

/-- Lines 135-136: the participants in no chosen team.  The Python code
iterates a set difference; the claims do not depend on the iteration order,
which is embedded here as ascending row position. -/
def unassigned_of (teams : List (List ℕ)) (n : ℕ) : List ℕ :=
  (List.range n).filter (fun x => decide (∀ t ∈ teams, x ∉ t))

/-- Lines 107-138 of `assign_groups`: the final list of teams, before group
ids are written into the dataframe. -/
def assign_groups (pick : List (List ℕ) → List ℕ) (cl : ℕ → ℕ)
    (req : ProjectRequirement) (n : ℕ) : List (List ℕ) :=
  distribute_overflow (chosen_teams pick cl req n) 0
    (unassigned_of (chosen_teams pick cl req n) n)

/-- Lines 141-143: the loop `for group_id, team in enumerate(teams, 1):
data.loc[team, 'Group'] = group_id`; a later team overwrites an earlier one. -/
def group_of_aux (x : ℕ) : List (List ℕ) → ℕ → Option ℕ → Option ℕ
  | [], _, acc => acc
  | t :: ts, g, acc => group_of_aux x ts (g + 1) (if x ∈ t then some g else acc)

/-- The `Group` value of participant `x` (None models the initial NaN of line 141). -/
def group_of (teams : List (List ℕ)) (x : ℕ) : Option ℕ :=
  group_of_aux x teams 1 none

/-- Lines 141-149: the final `Group` column, one entry per row. -/
def merge_groups (teams : List (List ℕ)) (n : ℕ) : List (Option ℕ) :=
  (List.range n).map (fun i => group_of teams i)

/-- Number of teams that contain participant `x`. -/
def countMem (x : ℕ) (teams : List (List ℕ)) : ℕ :=
  teams.countP (fun t => decide (x ∈ t))

/-- Size of team `j`. -/
def sizeAt (teams : List (List ℕ)) (j : ℕ) : ℕ :=
  (teams.getD j []).length

/-- A concrete sound selection used by witnesses: take the first candidate. -/
def pickFirst (cands : List (List ℕ)) : List ℕ :=
  cands.headD []

/-- Soundness of a selection function: it returns one of the candidates.
The score-argmax loop of lines 122-130 has this property, because every
score is at least 0 and the running best starts at -1, so `best_team` is
always set to some enumerated combination. -/
abbrev PickSound (pick : List (List ℕ) → List ℕ) : Prop :=
  ∀ cands, cands ≠ [] → pick cands ∈ cands

/-- No cluster label below `k` is empty.  sklearn's KMeans never returns an
empty cluster when `n_clusters` is at most the number of samples, which the
clamp of line 111 guarantees. -/
abbrev ClusterSurjective (cl : ℕ → ℕ) (k n : ℕ) : Prop :=
  ∀ c ∈ List.range k, ∃ i ∈ List.range n, cl i = c

/-- Spec-side merge (spec 4.6): raises an IntegrityError when a participant
is unassigned or assigned more than once, otherwise returns the group column. -/
def spec_merge_checked (teams : List (List ℕ)) (n : ℕ) : Except String (List (Option ℕ)) :=
  if ∀ i ∈ List.range n, countMem i teams = 1 then
    Except.ok (merge_groups teams n)
  else Except.error ("IntegrityError")

/-- A raw `Skills`/`Interests` cell as seen by `normalize_list_field`
(line 33): a string, a list of tokens, or anything else (NaN, None, a
number, ...). -/
inductive FieldValue where
  | str (s : String)
  | lst (l : List String)
  | other
deriving DecidableEq

/-- Lines 33-38: `normalize_list_field` -- split or map, strip whitespace,
drop empties, and fall back to the empty list for any other value. -/
def normalize_list_field : FieldValue → List String
  | FieldValue.str s => ((s.splitOn (",")).map String.trim).filter (fun t => decide (t ≠ ""))
  | FieldValue.lst l => (l.map String.trim).filter (fun t => decide (t ≠ ""))
  | FieldValue.other => []

/-- Spec-side parsing (spec 4.1): fails with a ValidationError when the
cell cannot be parsed into a set of strings. -/
def spec_parse_field : FieldValue → Except String (List String)
  | FieldValue.other => Except.error ("ValidationError")
  | v => Except.ok (normalize_list_field v)

/-- Concrete requirement used by witnesses. -/
def rqW : ProjectRequirement := ⟨2, 1, [], []⟩

/-- Concrete preprocessed cohort used by witnesses. -/
def dataW : List Participant :=
  [⟨[], [], 2, 0⟩, ⟨[], [], 1, 1⟩, ⟨[], [], 3, 0⟩]

lemma skill_match_bounds (team : List ℕ) (req : ProjectRequirement) (data : List Participant) :
    0 ≤ skill_match team req data ∧ skill_match team req data ≤ 1 := by
  unfold skill_match
  split_ifs with h
  · constructor
    · positivity
    · rw [div_le_one (by exact_mod_cast List.length_pos.mpr h)]
      exact_mod_cast le_trans (Finset.card_le_card Finset.inter_subset_left)
        (List.toFinset_card_le _)
  · norm_num

lemma interest_match_bounds (team : List ℕ) (req : ProjectRequirement) (data : List Participant) :
    0 ≤ interest_match team req data ∧ interest_match team req data ≤ 1 := by
  unfold interest_match
  split_ifs with h
  · constructor
    · positivity
    · rw [div_le_one (by exact_mod_cast List.length_pos.mpr h)]
      exact_mod_cast le_trans (Finset.card_le_card Finset.inter_subset_left)
        (List.toFinset_card_le _)
  · norm_num

lemma exp_balance_bounds (team : List ℕ) (data : List Participant) :
    0 ≤ exp_balance team data ∧ exp_balance team data ≤ 1 := by
  unfold exp_balance
  split_ifs with h
  · exact ⟨le_max_left 0 _, max_le zero_le_one (min_le_left 1 _)⟩
  · norm_num

lemma personality_diversity_bounds (team : List ℕ) (data : List Participant) :
    0 ≤ personality_diversity team data ∧ personality_diversity team data ≤ 1 := by
  unfold personality_diversity
  split_ifs with h
  · constructor
    · positivity
    · rw [div_le_one (by exact_mod_cast h)]
      calc ((team.map (fun i => (getP data i).personality)).toFinset.card : ℝ)
          ≤ ((team.map (fun i => (getP data i).personality)).length : ℝ) := by
            exact_mod_cast (List.toFinset_card_le _)
        _ = (team.length : ℝ) := by rw [List.length_map]
  · norm_num

/-- C3: for every team and project requirement the score returned by
`compute_weighted_score` lies in the closed interval [0, 1]. -/
theorem compute_weighted_score_mem_unit_interval (team : List ℕ)
    (req : ProjectRequirement) (data : List Participant) :
    0 ≤ compute_weighted_score team req data ∧ compute_weighted_score team req data ≤ 1 := by
  obtain ⟨a0, a1⟩ := skill_match_bounds team req data
  obtain ⟨b0, b1⟩ := interest_match_bounds team req data
  obtain ⟨c0, c1⟩ := exp_balance_bounds team data
  obtain ⟨d0, d1⟩ := personality_diversity_bounds team data
  unfold compute_weighted_score
  constructor <;> nlinarith

lemma skill_match_eq_spec (team : List ℕ) (req : ProjectRequirement)
    (data : List Participant) (h : (required_skills_clean req).Nodup) :
    skill_match team req data = spec_skill_match team req data := by
  unfold skill_match spec_skill_match
  by_cases hne : required_skills_clean req = []
  · simp [hne]
  · have hf : (required_skills_clean req).toFinset ≠ ∅ := by
      simpa [List.toFinset_eq_empty_iff] using hne
    rw [if_pos hne, if_pos hf, List.toFinset_card_of_nodup h]

lemma interest_match_eq_spec (team : List ℕ) (req : ProjectRequirement)
    (data : List Participant) (h : (preferred_interests_clean req).Nodup) :
    interest_match team req data = spec_interest_match team req data := by
  unfold interest_match spec_interest_match
  by_cases hne : preferred_interests_clean req = []
  · simp [hne]
  · have hf : (preferred_interests_clean req).toFinset ≠ ∅ := by
      simpa [List.toFinset_eq_empty_iff] using hne
    rw [if_pos hne, if_pos hf, List.toFinset_card_of_nodup h]

lemma np_mean_exp_nonneg (team : List ℕ) (data : List Participant) :
    0 ≤ np_mean (exp_scores team data) := by
  unfold np_mean exp_scores
  apply div_nonneg
  · apply List.sum_nonneg
    intro x hx
    simp only [List.mem_map] at hx
    obtain ⟨i, _, rfl⟩ := hx
    positivity
  · positivity

lemma exp_balance_eq_spec (team : List ℕ) (data : List Participant) :
    exp_balance team data = spec_exp_balance team data := by
  have hm := np_mean_exp_nonneg team data
  have hl : (exp_scores team data).length = team.length := by
    simp [exp_scores]
  unfold exp_balance spec_exp_balance
  split_ifs with h1 h2 h2
  · exfalso
    obtain ⟨ha, hb⟩ := h1
    rw [hl] at ha
    rcases h2 with h2 | h2
    · omega
    · rw [h2] at hb
      exact lt_irrefl 0 hb
  · rfl
  · rfl
  · exfalso
    rw [not_and_or, hl] at h1
    rcases h1 with h1 | h1
    · exact h2 (Or.inl (by omega))
    · exact h2 (Or.inr (le_antisymm (not_lt.mp h1) hm))

lemma personality_diversity_eq_spec (team : List ℕ) (data : List Participant) :
    personality_diversity team data = spec_personality_diversity team data := by
  unfold personality_diversity spec_personality_diversity
  split_ifs with h
  · rfl
  · have hz : team.length = 0 := by omega
    rw [hz]
    norm_num

/-- C2: `compute_weighted_score` equals the spec formula
`0.4*skill_match + 0.3*interest_match + 0.2*experience_balance +
0.1*personality_diversity`, with each term as defined in spec 4.3, for every
non-empty duplicate-free team drawn from the cohort and every requirement
whose cleaned skill and interest lists are duplicate free (i.e. denote sets). -/
theorem compute_weighted_score_matches_spec (team : List ℕ) (req : ProjectRequirement)
    (data : List Participant) (hne : team ≠ []) (hmem : ∀ i ∈ team, i < data.length)
    (hnd : team.Nodup) (hreq : (required_skills_clean req).Nodup)
    (hint : (preferred_interests_clean req).Nodup) :
    compute_weighted_score team req data =
      0.4 * spec_skill_match team req data + 0.3 * spec_interest_match team req data
        + 0.2 * spec_exp_balance team data + 0.1 * spec_personality_diversity team data := by
  unfold compute_weighted_score
  rw [skill_match_eq_spec team req data hreq, interest_match_eq_spec team req data hint,
    exp_balance_eq_spec team data, personality_diversity_eq_spec team data]

/-- Witness for C2 at a concrete team and requirement. -/
theorem compute_weighted_score_matches_spec_witness :
    (([0, 1] : List ℕ) ≠ [] ∧ (∀ i ∈ ([0, 1] : List ℕ), i < dataW.length)
        ∧ ([0, 1] : List ℕ).Nodup ∧ (required_skills_clean rqW).Nodup
        ∧ (preferred_interests_clean rqW).Nodup) ∧
      compute_weighted_score [0, 1] rqW dataW =
        0.4 * spec_skill_match [0, 1] rqW dataW + 0.3 * spec_interest_match [0, 1] rqW dataW
          + 0.2 * spec_exp_balance [0, 1] dataW + 0.1 * spec_personality_diversity [0, 1] dataW :=
  ⟨⟨by decide, by decide, by decide, by decide, by decide⟩,
    compute_weighted_score_matches_spec [0, 1] rqW dataW (by decide) (by decide) (by decide)
      (by decide) (by decide)⟩

lemma foldl_union_mem (s : ℕ → Finset String) (team : List ℕ) :
    ∀ (acc : Finset String) (x : String),
      (x ∈ team.foldl (fun a i => a ∪ s i) acc) ↔ x ∈ acc ∨ ∃ i ∈ team, x ∈ s i := by
  induction team with
  | nil => intro acc x; simp
  | cons hd tl ih =>
    intro acc x
    rw [List.foldl_cons, ih]
    simp only [Finset.mem_union, List.mem_cons]
    constructor
    · rintro (⟨hx | hx⟩ | ⟨i, hi, hx⟩)
      · exact Or.inl hx
      · exact Or.inr ⟨hd, Or.inl rfl, hx⟩
      · exact Or.inr ⟨i, Or.inr hi, hx⟩
    · rintro (hx | ⟨i, rfl | hi, hx⟩)
      · exact Or.inl (Or.inl hx)
      · exact Or.inl (Or.inr hx)
      · exact Or.inr ⟨i, hi, hx⟩

lemma foldl_union_perm (s : ℕ → Finset String) {t1 t2 : List ℕ} (h : t1.Perm t2) :
    t1.foldl (fun a i => a ∪ s i) ∅ = t2.foldl (fun a i => a ∪ s i) ∅ := by
  apply Finset.ext
  intro x
  rw [foldl_union_mem, foldl_union_mem]
  simp only [Finset.not_mem_empty, false_or]
  constructor
  · rintro ⟨i, hi, hx⟩
    exact ⟨i, h.mem_iff.mp hi, hx⟩
  · rintro ⟨i, hi, hx⟩
    exact ⟨i, h.mem_iff.mpr hi, hx⟩

lemma np_mean_perm {l1 l2 : List ℝ} (h : l1.Perm l2) : np_mean l1 = np_mean l2 := by
  unfold np_mean
  rw [h.sum_eq, h.length_eq]

lemma np_std_perm {l1 l2 : List ℝ} (h : l1.Perm l2) : np_std l1 = np_std l2 := by
  unfold np_std
  rw [np_mean_perm h, (h.map (fun x => (x - np_mean l2) ^ 2)).sum_eq, h.length_eq]

/-- C4: `compute_weighted_score` is invariant under permuting team membership;
scoring is a pure function of the team, requirement and data (the embedding
has no mutable state, so absence of side effects holds by construction). -/
theorem compute_weighted_score_perm_invariant (req : ProjectRequirement)
    (data : List Participant) (t1 t2 : List ℕ) (h : t1.Perm t2) :
    compute_weighted_score t1 req data = compute_weighted_score t2 req data := by
  have hskills : team_skills data t1 = team_skills data t2 := foldl_union_perm _ h
  have hints : team_interests data t1 = team_interests data t2 := foldl_union_perm _ h
  have hexp : (exp_scores t1 data).Perm (exp_scores t2 data) := h.map _
  have hpers : (t1.map (fun i => (getP data i).personality)).Perm
      (t2.map (fun i => (getP data i).personality)) := h.map _
  unfold compute_weighted_score skill_match interest_match exp_balance personality_diversity
  rw [hskills, hints, np_mean_perm hexp, np_std_perm hexp, hexp.length_eq, h.length_eq,
    List.toFinset_eq_of_perm _ _ hpers]

/-- Witness for C4 at a concrete transposition. -/
theorem compute_weighted_score_perm_invariant_witness :
    ([0, 1] : List ℕ).Perm [1, 0] ∧
      compute_weighted_score [0, 1] rqW dataW = compute_weighted_score [1, 0] rqW dataW :=
  ⟨by decide, compute_weighted_score_perm_invariant rqW dataW [0, 1] [1, 0] (by decide)⟩

/-- C9: for a team of size at most 1, or mean experience 0, the experience
term is 0 (the guard of line 93 makes the division unreachable) and the score
reduces to the three remaining terms. -/
theorem exp_balance_zero_of_degenerate (team : List ℕ) (req : ProjectRequirement)
    (data : List Participant)
    (h : team.length ≤ 1 ∨ np_mean (exp_scores team data) = 0) :
    exp_balance team data = 0 ∧
      compute_weighted_score team req data =
        0.4 * skill_match team req data + 0.3 * interest_match team req data
          + 0.1 * personality_diversity team data := by
  have hz : exp_balance team data = 0 := by
    unfold exp_balance
    rw [if_neg]
    rintro ⟨h1, h2⟩
    simp only [exp_scores, List.length_map] at h1
    rcases h with h | h
    · omega
    · rw [h] at h2
      exact lt_irrefl 0 h2
  refine ⟨hz, ?_⟩
  unfold compute_weighted_score
  rw [hz]
  ring

/-- Witness for C9 at a singleton team. -/
theorem exp_balance_zero_of_degenerate_witness :
    (([0] : List ℕ).length ≤ 1 ∨ np_mean (exp_scores [0] dataW) = 0) ∧
      (exp_balance [0] dataW = 0 ∧
        compute_weighted_score [0] rqW dataW =
          0.4 * skill_match [0] rqW dataW + 0.3 * interest_match [0] rqW dataW
            + 0.1 * personality_diversity [0] dataW) :=
  ⟨Or.inl (by decide), exp_balance_zero_of_degenerate [0] rqW dataW (Or.inl (by decide))⟩

/-- C10: the empty team scores exactly 0 (every term takes its guarded zero
branch) and is the single candidate the optimizer enumerates for an empty
cluster, since the combination size is `min(team_size, 0) = 0`. -/
theorem compute_weighted_score_empty_team (req : ProjectRequirement)
    (data : List Participant) (team_size : ℕ) :
    compute_weighted_score [] req data = 0 ∧ cluster_candidates [] team_size = [[]] := by
  constructor
  · unfold compute_weighted_score skill_match interest_match exp_balance personality_diversity
    simp [team_skills, team_interests, exp_scores]
  · unfold cluster_candidates
    rw [List.length_nil, Nat.min_zero, List.sublistsLen_zero]

lemma length_append_at (ts : List (List ℕ)) (jt x : ℕ) :
    (append_at ts jt x).length = ts.length := by
  induction ts generalizing jt with
  | nil => simp [append_at]
  | cons t ts ih =>
    cases jt with
    | zero => simp [append_at]
    | succ jt => simp [append_at, ih]

lemma getD_append_at (ts : List (List ℕ)) (jt x : ℕ) :
    ∀ j, (append_at ts jt x).getD j [] =
      if j = jt ∧ j < ts.length then ts.getD j [] ++ [x] else ts.getD j [] := by
  induction ts generalizing jt with
  | nil => intro j; simp [append_at]
  | cons t ts ih =>
    intro j
    cases jt with
    | zero =>
      cases j with
      | zero => simp [append_at]
      | succ j => simp [append_at]
    | succ jt =>
      cases j with
      | zero => simp [append_at]
      | succ j =>
        simp only [append_at, List.getD_cons_succ, List.length_cons]
        rw [ih jt j]
        have hiff : (j = jt ∧ j < ts.length) ↔ (j + 1 = jt + 1 ∧ j + 1 < ts.length + 1) := by
          omega
        rw [if_congr hiff rfl rfl]

lemma sizeAt_append_at (ts : List (List ℕ)) (jt x j : ℕ) :
    sizeAt (append_at ts jt x) j = sizeAt ts j + if j = jt ∧ j < ts.length then 1 else 0 := by
  unfold sizeAt
  rw [getD_append_at]
  split_ifs with h
  · simp
  · simp

lemma countMem_append_at (ts : List (List ℕ)) (jt x y : ℕ) (hj : jt < ts.length)
    (hx : ∀ t ∈ ts, x ∉ t) :
    countMem y (append_at ts jt x) = countMem y ts + if y = x then 1 else 0 := by
  induction ts generalizing jt with
  | nil => simp at hj
  | cons t ts ih =>
    cases jt with
    | zero =>
      simp only [append_at]
      unfold countMem
      rw [List.countP_cons, List.countP_cons]
      have hxt : x ∉ t := hx t (List.mem_cons_self t ts)
      by_cases hyt : y ∈ t
      · have hyx : ¬ y = x := fun h => hxt (h ▸ hyt)
        simp [List.mem_append, hyt, hyx]
      · by_cases hyx : y = x
        · subst hyx
          simp [List.mem_append, hyt]
        · simp [List.mem_append, hyt, hyx]
    | succ jt =>
      simp only [append_at]
      unfold countMem
      rw [List.countP_cons, List.countP_cons]
      have hrec := ih jt (by simpa using hj) (fun t' ht' => hx t' (List.mem_cons_of_mem t ht'))
      unfold countMem at hrec
      rw [hrec]
      omega

lemma mem_of_mem_append_at {ts : List (List ℕ)} {jt x : ℕ} {t : List ℕ}
    (ht : t ∈ append_at ts jt x) : t ∈ ts ∨ ∃ t0 ∈ ts, t = t0 ++ [x] := by
  induction ts generalizing jt with
  | nil => simp [append_at] at ht
  | cons t1 ts ih =>
    cases jt with
    | zero =>
      simp only [append_at, List.mem_cons] at ht
      rcases ht with rfl | ht
      · exact Or.inr ⟨t1, List.mem_cons_self t1 ts, rfl⟩
      · exact Or.inl (List.mem_cons_of_mem t1 ht)
    | succ jt =>
      simp only [append_at, List.mem_cons] at ht
      rcases ht with rfl | ht
      · exact Or.inl (List.mem_cons_self _ _)
      · rcases ih ht with h | ⟨t0, ht0, rfl⟩
        · exact Or.inl (List.mem_cons_of_mem _ h)
        · exact Or.inr ⟨t0, List.mem_cons_of_mem _ ht0, rfl⟩

lemma length_distribute_overflow (rem : List ℕ) :
    ∀ (ts : List (List ℕ)) (i : ℕ), (distribute_overflow ts i rem).length = ts.length := by
  induction rem with
  | nil => intro ts i; rfl
  | cons x xs ih =>
    intro ts i
    simp only [distribute_overflow]
    rw [ih, length_append_at]

lemma countMem_distribute_overflow (rem : List ℕ) :
    ∀ (ts : List (List ℕ)) (i : ℕ), 0 < ts.length → rem.Nodup →
      (∀ y ∈ rem, ∀ t ∈ ts, y ∉ t) → ∀ y,
      countMem y (distribute_overflow ts i rem) =
        countMem y ts + if y ∈ rem then 1 else 0 := by
  induction rem with
  | nil =>
    intro ts i _ _ _ y
    simp [distribute_overflow]
  | cons x xs ih =>
    intro ts i hk hnd hdis y
    simp only [distribute_overflow]
    have hjlt : i % ts.length < ts.length := Nat.mod_lt i hk
    have hxts : ∀ t ∈ ts, x ∉ t := hdis x (List.mem_cons_self x xs)
    have hlen : (append_at ts (i % ts.length) x).length = ts.length :=
      length_append_at ts _ x
    have hdis2 : ∀ z ∈ xs, ∀ t ∈ append_at ts (i % ts.length) x, z ∉ t := by
      intro z hz t ht
      rcases mem_of_mem_append_at ht with ht2 | ⟨t0, ht0, rfl⟩
      · exact hdis z (List.mem_cons_of_mem x hz) t ht2
      · intro hzt
        rcases List.mem_append.mp hzt with h | h
        · exact hdis z (List.mem_cons_of_mem x hz) t0 ht0 h
        · rcases List.mem_singleton.mp h with rfl
          exact (List.nodup_cons.mp hnd).1 hz
    rw [ih _ (i + 1) (by rw [hlen]; exact hk) (List.nodup_cons.mp hnd).2 hdis2 y,
      countMem_append_at ts _ x y hjlt hxts]
    by_cases hyx : y = x
    · subst hyx
      have hnx : y ∉ xs := (List.nodup_cons.mp hnd).1
      simp [hnx]
    · simp [List.mem_cons, hyx]

lemma mem_getD_distribute_overflow (rem : List ℕ) :
    ∀ (ts : List (List ℕ)) (i j x : ℕ), x ∈ ts.getD j [] →
      x ∈ (distribute_overflow ts i rem).getD j [] := by
  induction rem with
  | nil =>
    intro ts i j x hx
    simpa [distribute_overflow] using hx
  | cons y ys ih =>
    intro ts i j x hx
    simp only [distribute_overflow]
    apply ih
    rw [getD_append_at]
    split_ifs with h
    · exact List.mem_append_left _ hx
    · exact hx

lemma sizeAt_distribute_overflow (rem : List ℕ) :
    ∀ (ts : List (List ℕ)) (i j : ℕ), j < ts.length →
      sizeAt (distribute_overflow ts i rem) j =
        sizeAt ts j +
          (List.range rem.length).countP (fun p => decide ((p + i) % ts.length = j)) := by
  induction rem with
  | nil =>
    intro ts i j _
    simp [distribute_overflow]
  | cons x xs ih =>
    intro ts i j hj
    simp only [distribute_overflow, List.length_cons]
    have hlen := length_append_at ts (i % ts.length) x
    rw [ih _ (i + 1) j (by rw [hlen]; exact hj), sizeAt_append_at, hlen]
    rw [List.range_succ_eq_map, List.countP_cons, List.countP_map]
    have hfun : ((fun p => decide ((p + i) % ts.length = j)) ∘ Nat.succ) =
        (fun q : ℕ => decide ((q + (i + 1)) % ts.length = j)) := by
      funext q
      simp only [Function.comp_apply]
      have harith : Nat.succ q + i = q + (i + 1) := by omega
      rw [harith]
    rw [hfun]
    simp only [Nat.zero_add, decide_eq_true_eq]
    by_cases h0 : i % ts.length = j
    · rw [if_pos h0, if_pos ⟨h0.symm, hj⟩]
      omega
    · rw [if_neg h0, if_neg (fun hc => h0 hc.1.symm)]
      omega

lemma countP_range_mod (k j : ℕ) (hj : j < k) :
    ∀ L : ℕ, (List.range L).countP (fun p => decide (p % k = j)) =
      L / k + if j < L % k then 1 else 0 := by
  have hk : 0 < k := by omega
  intro L
  induction L with
  | zero => simp
  | succ m ih =>
    rw [List.range_succ, List.countP_append, ih]
    have hmod := Nat.mod_lt m hk
    have hsing : (List.countP (fun p => decide (p % k = j)) [m]) =
        if m % k = j then 1 else 0 := by
      by_cases hc : m % k = j <;> simp [List.countP_cons, hc]
    rw [hsing]
    rcases Nat.lt_or_ge (m % k + 1) k with hlt | hge
    · have e : m + 1 = (m % k + 1) + k * (m / k) := by
        have := Nat.mod_add_div m k
        omega
      have h1 : (m + 1) % k = m % k + 1 := by
        rw [e, Nat.add_mul_mod_self_left, Nat.mod_eq_of_lt hlt]
      have h2 : (m + 1) / k = m / k := by
        rw [e, Nat.add_mul_div_left _ _ hk, Nat.div_eq_of_lt hlt, Nat.zero_add]
      rw [h1, h2]
      split_ifs <;> omega
    · have heq : m % k + 1 = k := by omega
      have e : m + 1 = k * (m / k + 1) := by
        have := Nat.mod_add_div m k
        rw [Nat.mul_add, Nat.mul_one]
        omega
      have h1 : (m + 1) % k = 0 := by
        rw [e]
        exact Nat.mul_mod_right k _
      have h2 : (m + 1) / k = m / k + 1 := by
        rw [e]
        exact Nat.mul_div_cancel_left _ hk
      rw [h1, h2]
      split_ifs <;> omega

/-- C6 counterexample: two teams of sizes 3 and 2 built with `team_size = 3`
(so from clusters of sizes at least 3 and exactly 2) receive 5 leftover
participants round-robin; the first team ends with 6 members, deviating from
`team_size` by 3, while the claimed bound is `5 % 2 = 1`. -/
theorem distribute_overflow_size_bound_counterexample :
    ¬ (((sizeAt (distribute_overflow [[0, 1, 2], [3, 4]] 0 [5, 6, 7, 8, 9]) 0 : ℤ) - 3).natAbs
        ≤ 5 % 2) := by
  decide

/-- C6 amended: the round-robin loop gives team `j` exactly
`L / k + (1 if j < L % k else 0)` extra members, where `L` is the leftover
count and `k` the team count; the final size is the pre-overflow size plus
that quantity (it is not within `L % k` of `team_size` in general, since
pre-overflow sizes can be below `team_size` and every team receives about
`L / k` leftovers). -/
theorem distribute_overflow_sizes (teams : List (List ℕ)) (rem : List ℕ) (j : ℕ)
    (hj : j < teams.length) :
    sizeAt (distribute_overflow teams 0 rem) j =
      sizeAt teams j + rem.length / teams.length
        + (if j < rem.length % teams.length then 1 else 0) := by
  rw [sizeAt_distribute_overflow rem teams 0 j hj]
  have hfun : (fun p : ℕ => decide ((p + 0) % teams.length = j)) =
      (fun p : ℕ => decide (p % teams.length = j)) := by
    funext p
    rw [Nat.add_zero]
  rw [hfun, countP_range_mod teams.length j hj]
  omega

/-- Witness for the amended C6 at a concrete overflow distribution. -/
theorem distribute_overflow_sizes_witness :
    (0 : ℕ) < ([[0], [1]] : List (List ℕ)).length ∧
      sizeAt (distribute_overflow [[0], [1]] 0 [2, 3, 4]) 0 =
        sizeAt [[0], [1]] 0 + ([2, 3, 4] : List ℕ).length / ([[0], [1]] : List (List ℕ)).length
          + (if 0 < ([2, 3, 4] : List ℕ).length % ([[0], [1]] : List (List ℕ)).length
              then 1 else 0) :=
  ⟨by decide, distribute_overflow_sizes [[0], [1]] [2, 3, 4] 0 (by decide)⟩

lemma group_of_aux_acc (x : ℕ) :
    ∀ (teams : List (List ℕ)) (g : ℕ) (acc : Option ℕ),
      (∀ t ∈ teams, x ∉ t) → group_of_aux x teams g acc = acc := by
  intro teams
  induction teams with
  | nil => intro g acc _; rfl
  | cons t ts ih =>
    intro g acc h
    simp only [group_of_aux]
    rw [if_neg (h t (List.mem_cons_self t ts))]
    exact ih (g + 1) acc (fun u hu => h u (List.mem_cons_of_mem t hu))

lemma group_of_aux_eq_of_unique (x : ℕ) :
    ∀ (teams : List (List ℕ)) (g : ℕ) (acc : Option ℕ) (j : ℕ), j < teams.length →
      x ∈ teams.getD j [] → countMem x teams = 1 →
      group_of_aux x teams g acc = some (g + j) := by
  intro teams
  induction teams with
  | nil => intro g acc j hj; simp at hj
  | cons t ts ih =>
    intro g acc j hj hmem hcount
    unfold countMem at hcount
    rw [List.countP_cons] at hcount
    simp only [decide_eq_true_eq] at hcount
    cases j with
    | zero =>
      rw [List.getD_cons_zero] at hmem
      rw [if_pos hmem] at hcount
      simp only [group_of_aux]
      rw [if_pos hmem]
      have hnone : ∀ u ∈ ts, x ∉ u := by
        intro u hu hxu
        have hpos : 0 < List.countP (fun t => decide (x ∈ t)) ts :=
          List.countP_pos_iff.mpr ⟨u, hu, by simpa⟩
        omega
      rw [group_of_aux_acc x ts (g + 1) (some g) hnone]
      simp
    | succ j =>
      rw [List.getD_cons_succ] at hmem
      have hjlen : j < ts.length := by simpa using hj
      have hxt : x ∉ t := by
        intro hxt
        have hpos : 0 < List.countP (fun t => decide (x ∈ t)) ts := by
          apply List.countP_pos_iff.mpr
          refine ⟨ts.getD j [], ?_, by simpa using hmem⟩
          rw [List.getD_eq_getElem ts [] hjlen]
          exact List.getElem_mem hjlen
        rw [if_pos hxt] at hcount
        omega
      simp only [group_of_aux]
      rw [if_neg hxt]
      rw [if_neg hxt] at hcount
      have hrec : group_of_aux x ts (g + 1) acc = some ((g + 1) + j) := by
        apply ih (g + 1) acc j hjlen hmem
        unfold countMem
        omega
      rw [hrec]
      congr 1
      omega

lemma group_of_aux_some (x : ℕ) :
    ∀ (teams : List (List ℕ)) (g : ℕ) (acc : Option ℕ) (v : ℕ),
      group_of_aux x teams g acc = some v →
      acc = some v ∨ ∃ j, j < teams.length ∧ v = g + j := by
  intro teams
  induction teams with
  | nil => intro g acc v h; exact Or.inl h
  | cons t ts ih =>
    intro g acc v h
    simp only [group_of_aux] at h
    rcases ih (g + 1) _ v h with hacc | ⟨j, hj, rfl⟩
    · by_cases hx : x ∈ t
      · rw [if_pos hx] at hacc
        have : g = v := Option.some_inj.mp hacc
        exact Or.inr ⟨0, by simp, by omega⟩
      · rw [if_neg hx] at hacc
        exact Or.inl hacc
    · exact Or.inr ⟨j + 1, by simpa using hj, by omega⟩

lemma group_of_aux_none_iff (x : ℕ) :
    ∀ (teams : List (List ℕ)) (g : ℕ) (acc : Option ℕ),
      group_of_aux x teams g acc = none ↔ acc = none ∧ ∀ t ∈ teams, x ∉ t := by
  intro teams
  induction teams with
  | nil => intro g acc; simp [group_of_aux]
  | cons t ts ih =>
    intro g acc
    simp only [group_of_aux]
    rw [ih]
    by_cases hx : x ∈ t
    · rw [if_pos hx]
      simp only [List.mem_cons]
      constructor
      · rintro ⟨h, -⟩
        exact absurd h (by simp)
      · rintro ⟨-, h⟩
        exact absurd hx (h t (Or.inl rfl))
    · rw [if_neg hx]
      simp only [List.mem_cons]
      constructor
      · rintro ⟨h1, h2⟩
        refine ⟨h1, ?_⟩
        rintro u (rfl | hu)
        · exact hx
        · exact h2 u hu
      · rintro ⟨h1, h2⟩
        exact ⟨h1, fun u hu => h2 u (Or.inr hu)⟩

lemma merge_groups_getD (teams : List (List ℕ)) (n i : ℕ) (hi : i < n) :
    (merge_groups teams n).getD i none = group_of teams i := by
  unfold merge_groups
  have hlen : i < ((List.range n).map (fun i => group_of teams i)).length := by
    simpa using hi
  rw [List.getD_eq_getElem _ _ hlen]
  simp

/-- C7 counterexample: with teams `[[0]]` over a cohort of 2, participant 1
is unassigned, yet the merge completes and returns a column with a missing
value instead of raising; the spec-side checked merge would have raised an
IntegrityError. -/
theorem merge_groups_no_integrity_error_counterexample :
    merge_groups [[0]] 2 = [some 1, none] ∧
      spec_merge_checked [[0]] 2 = Except.error ("IntegrityError") := by
  constructor
  · rfl
  · rfl

/-- C7 amended: the merging step performs no integrity check and never
raises; a participant in no team simply keeps a missing `Group` value (the
column is then left uncast), and one in several teams gets the last such
team's id. -/
theorem merge_groups_missing_iff_unassigned (teams : List (List ℕ)) (n i : ℕ)
    (hi : i < n) :
    ((merge_groups teams n).getD i none = none ↔ ∀ t ∈ teams, i ∉ t) := by
  rw [merge_groups_getD teams n i hi]
  unfold group_of
  rw [group_of_aux_none_iff]
  simp

/-- Witness for the amended C7. -/
theorem merge_groups_missing_iff_unassigned_witness :
    (1 : ℕ) < 2 ∧
      ((merge_groups [[0]] 2).getD 1 none = none ↔ ∀ t ∈ ([[0]] : List (List ℕ)), 1 ∉ t) :=
  ⟨by decide, merge_groups_missing_iff_unassigned [[0]] 2 1 (by decide)⟩

/-- C8 counterexample: a `Skills` cell that is neither a string nor a list
(e.g. NaN) is coerced to the empty list by `normalize_list_field`, and the
run continues; the spec-side parser would have raised a ValidationError. -/
theorem normalize_list_field_no_validation_error_counterexample :
    normalize_list_field FieldValue.other = [] ∧
      spec_parse_field FieldValue.other = Except.error ("ValidationError") := by
  constructor
  · rfl
  · rfl

/-- C8 amended: preprocessing never fails on an unparseable skills or
interests cell; any value that is neither a string nor a list is coerced to
the empty token list and the feature matrix is still produced. -/
theorem normalize_list_field_fallback (v : FieldValue)
    (h1 : ∀ s, v ≠ FieldValue.str s) (h2 : ∀ l, v ≠ FieldValue.lst l) :
    normalize_list_field v = [] := by
  cases v with
  | str s => exact absurd rfl (h1 s)
  | lst l => exact absurd rfl (h2 l)
  | other => rfl

/-- Witness for the amended C8. -/
theorem normalize_list_field_fallback_witness :
    (∀ s, FieldValue.other ≠ FieldValue.str s) ∧ (∀ l, FieldValue.other ≠ FieldValue.lst l) ∧
      normalize_list_field FieldValue.other = [] :=
  ⟨fun s h => FieldValue.noConfusion h,
    ⟨fun l h => FieldValue.noConfusion h,
      normalize_list_field_fallback FieldValue.other (fun s h => FieldValue.noConfusion h)
        (fun l h => FieldValue.noConfusion h)⟩⟩

lemma pickFirst_sound : PickSound pickFirst := by
  intro cands h
  cases cands with
  | nil => exact absurd rfl h
  | cons a t => simp [pickFirst]

lemma mem_cluster_members (cl : ℕ → ℕ) (n c i : ℕ) :
    i ∈ cluster_members cl n c ↔ i < n ∧ cl i = c := by
  simp [cluster_members, List.mem_filter, List.mem_range]

lemma cluster_candidates_ne_nil (members : List ℕ) (ts : ℕ) :
    cluster_candidates members ts ≠ [] := by
  intro h
  have hlen := List.length_sublistsLen (min ts members.length) members
  unfold cluster_candidates at h
  rw [h] at hlen
  have hp := Nat.choose_pos (Nat.min_le_right ts members.length)
  simp at hlen
  omega

lemma chosen_team_subset (pick : List (List ℕ) → List ℕ) (hpick : PickSound pick)
    (ts : ℕ) (members : List ℕ) :
    List.Sublist (pick (cluster_candidates members ts)) members ∧
      (pick (cluster_candidates members ts)).length = min ts members.length := by
  have hmem := hpick _ (cluster_candidates_ne_nil members ts)
  unfold cluster_candidates at hmem
  exact List.mem_sublistsLen.mp hmem

lemma chosen_teams_getD (pick : List (List ℕ) → List ℕ) (cl : ℕ → ℕ)
    (req : ProjectRequirement) (n j : ℕ) (hj : j < num_groups req n) :
    (chosen_teams pick cl req n).getD j [] =
      pick (cluster_candidates (cluster_members cl n j) req.team_size) := by
  unfold chosen_teams
  have hlen : j < ((List.range (num_groups req n)).map
      (fun c => pick (cluster_candidates (cluster_members cl n c) req.team_size))).length := by
    simpa using hj
  rw [List.getD_eq_getElem _ _ hlen]
  simp

lemma countP_le_one_of_unique {α : Type} {p : α → Bool} {l : List α} (hnd : l.Nodup)
    (a0 : α) (h : ∀ a ∈ l, p a = true → a = a0) : l.countP p ≤ 1 := by
  induction l with
  | nil => simp
  | cons b bs ih =>
    rw [List.countP_cons]
    rcases List.nodup_cons.mp hnd with ⟨hb, hbs⟩
    by_cases hpb : p b = true
    · have hba : b = a0 := h b (List.mem_cons_self b bs) hpb
      have hzero : bs.countP p = 0 := by
        rw [List.countP_eq_zero]
        intro a ha hpa
        have ha0 : a = a0 := h a (List.mem_cons_of_mem b ha) hpa
        refine hb ?_
        rw [hba, ← ha0]
        exact ha
      rw [hzero]
      simp [hpb]
    · have hrec := ih hbs (fun a ha hpa => h a (List.mem_cons_of_mem b ha) hpa)
      rw [if_neg hpb]
      omega

lemma countMem_chosen_le_one (pick : List (List ℕ) → List ℕ) (hpick : PickSound pick)
    (cl : ℕ → ℕ) (req : ProjectRequirement) (n x : ℕ) :
    countMem x (chosen_teams pick cl req n) ≤ 1 := by
  unfold countMem chosen_teams
  rw [List.countP_map]
  apply countP_le_one_of_unique (List.nodup_range _) (cl x)
  intro c hc hp
  simp only [Function.comp_apply, decide_eq_true_eq] at hp
  have hsub := (chosen_team_subset pick hpick req.team_size (cluster_members cl n c)).1
  have hxm : x ∈ cluster_members cl n c := hsub.subset hp
  exact ((mem_cluster_members cl n c x).mp hxm).2.symm

lemma assign_groups_countMem (pick : List (List ℕ) → List ℕ) (hpick : PickSound pick)
    (cl : ℕ → ℕ) (req : ProjectRequirement) (n x : ℕ) (hx : x < n) :
    countMem x (assign_groups pick cl req n) = 1 := by
  have hKpos : 0 < num_groups req n := lt_of_lt_of_le one_pos (le_max_left 1 _)
  have hCHlen : (chosen_teams pick cl req n).length = num_groups req n := by
    simp [chosen_teams]
  have hCHpos : 0 < (chosen_teams pick cl req n).length := by omega
  have hU : (unassigned_of (chosen_teams pick cl req n) n).Nodup :=
    List.Nodup.filter _ (List.nodup_range _)
  have hUdis : ∀ y ∈ unassigned_of (chosen_teams pick cl req n) n,
      ∀ t ∈ chosen_teams pick cl req n, y ∉ t := by
    intro y hy
    simp only [unassigned_of, List.mem_filter, decide_eq_true_eq] at hy
    exact hy.2
  unfold assign_groups
  rw [countMem_distribute_overflow _ _ 0 hCHpos hU hUdis x]
  by_cases hass : ∃ t ∈ chosen_teams pick cl req n, x ∈ t
  · have h1 : 0 < countMem x (chosen_teams pick cl req n) := by
      obtain ⟨t, ht, hxt⟩ := hass
      exact List.countP_pos_iff.mpr ⟨t, ht, by simpa⟩
    have h2 := countMem_chosen_le_one pick hpick cl req n x
    have hnu : x ∉ unassigned_of (chosen_teams pick cl req n) n := by
      intro hxu
      simp only [unassigned_of, List.mem_filter, decide_eq_true_eq] at hxu
      obtain ⟨t, ht, hxt⟩ := hass
      exact hxu.2 t ht hxt
    rw [if_neg hnu]
    omega
  · have h0 : countMem x (chosen_teams pick cl req n) = 0 := by
      rw [countMem, List.countP_eq_zero]
      intro t ht
      simp only [decide_eq_true_eq]
      intro hxt
      exact hass ⟨t, ht, hxt⟩
    have hu : x ∈ unassigned_of (chosen_teams pick cl req n) n := by
      simp only [unassigned_of, List.mem_filter, List.mem_range, decide_eq_true_eq]
      exact ⟨hx, fun t ht hxt => hass ⟨t, ht, hxt⟩⟩
    rw [h0, if_pos hu]

/-- C1: for every sound selection and every clustering, the final assignment
places every participant in exactly one team, and the participant's `Group`
value is present (not NaN). -/
theorem assign_groups_exactly_one (pick : List (List ℕ) → List ℕ) (cl : ℕ → ℕ)
    (req : ProjectRequirement) (n x : ℕ) (hpick : PickSound pick) (hx : x < n) :
    countMem x (assign_groups pick cl req n) = 1 ∧
      (group_of (assign_groups pick cl req n) x).isSome = true := by
  have hcount := assign_groups_countMem pick hpick cl req n x hx
  refine ⟨hcount, ?_⟩
  have hpos : 0 < List.countP (fun t => decide (x ∈ t)) (assign_groups pick cl req n) := by
    unfold countMem at hcount
    omega
  obtain ⟨t, ht, hxt⟩ := List.countP_pos_iff.mp hpos
  simp only [decide_eq_true_eq] at hxt
  obtain ⟨j, hjt⟩ := List.mem_iff_get.mp ht
  have hjlen : (j : ℕ) < (assign_groups pick cl req n).length := j.isLt
  have hmem : x ∈ (assign_groups pick cl req n).getD (j : ℕ) [] := by
    rw [List.getD_eq_getElem _ _ hjlen, ← List.get_eq_getElem, hjt]
    exact hxt
  have hsome := group_of_aux_eq_of_unique x (assign_groups pick cl req n) 1 none
    (j : ℕ) hjlen hmem hcount
  unfold group_of
  rw [hsome]
  rfl

/-- Witness for C1 at a concrete cohort, clustering and selection. -/
theorem assign_groups_exactly_one_witness :
    PickSound pickFirst ∧ (3 : ℕ) < 5 ∧
      (countMem 3 (assign_groups pickFirst (fun i => i % 2) rqW 5) = 1 ∧
        (group_of (assign_groups pickFirst (fun i => i % 2) rqW 5) 3).isSome = true) :=
  ⟨pickFirst_sound, by decide,
    assign_groups_exactly_one pickFirst (fun i => i % 2) rqW 5 3 pickFirst_sound (by decide)⟩

/-- C5: with at least one participant, a positive `team_size`, a sound
selection and a clustering that leaves no label below `num_groups` empty
(sklearn KMeans guarantees this when `k` is at most the sample count, which
the clamp of line 111 ensures), the number of distinct groups in the final
assignment is exactly `num_groups = clamp(num_teams, 1, cohort_size)`; in
particular `num_teams ≥ cohort_size` clamps to the cohort size. -/
theorem assign_groups_group_count (pick : List (List ℕ) → List ℕ) (cl : ℕ → ℕ)
    (req : ProjectRequirement) (n : ℕ) (hpick : PickSound pick) (hn : 1 ≤ n)
    (hts : 1 ≤ req.team_size)
    (hsurj : ClusterSurjective cl (num_groups req n) n) :
    ((List.range n).filterMap (group_of (assign_groups pick cl req n))).toFinset.card
        = num_groups req n ∧
      num_groups req n = max 1 (min req.num_teams n) ∧
      (n ≤ req.num_teams → num_groups req n = n) := by
  refine ⟨?_, rfl, fun hle => by unfold num_groups; omega⟩
  have hKpos : 0 < num_groups req n := lt_of_lt_of_le one_pos (le_max_left 1 _)
  have hAlen : (assign_groups pick cl req n).length = num_groups req n := by
    unfold assign_groups
    rw [length_distribute_overflow]
    simp [chosen_teams]
  have hset : ((List.range n).filterMap (group_of (assign_groups pick cl req n))).toFinset
      = Finset.Icc 1 (num_groups req n) := by
    apply Finset.ext
    intro g
    simp only [List.mem_toFinset, List.mem_filterMap, List.mem_range, Finset.mem_Icc]
    constructor
    · rintro ⟨i, hi, hgi⟩
      unfold group_of at hgi
      rcases group_of_aux_some i (assign_groups pick cl req n) 1 none g hgi with h | ⟨j, hj, rfl⟩
      · exact absurd h (by simp)
      · rw [hAlen] at hj
        omega
    · rintro ⟨hg1, hgK⟩
      have hj : g - 1 < num_groups req n := by omega
      obtain ⟨i0, hi0, hcl⟩ := hsurj (g - 1) (List.mem_range.mpr hj)
      rw [List.mem_range] at hi0
      have hmemc : i0 ∈ cluster_members cl n (g - 1) :=
        (mem_cluster_members cl n (g - 1) i0).mpr ⟨hi0, hcl⟩
      have hmlen : 0 < (cluster_members cl n (g - 1)).length :=
        List.length_pos.mpr (fun hnil => by simp [hnil] at hmemc)
      have hsub := chosen_team_subset pick hpick req.team_size (cluster_members cl n (g - 1))
      have htlen : 0 < (pick (cluster_candidates (cluster_members cl n (g - 1))
          req.team_size)).length := by
        rw [hsub.2]
        exact lt_min hts hmlen
      have hxex : ∃ a, a ∈ pick (cluster_candidates (cluster_members cl n (g - 1))
          req.team_size) := List.exists_mem_of_length_pos htlen
      obtain ⟨x, hxmem⟩ := hxex
      have hCHgetD := chosen_teams_getD pick cl req n (g - 1) hj
      have hxCH : x ∈ (chosen_teams pick cl req n).getD (g - 1) [] := by
        rw [hCHgetD]
        exact hxmem
      have hxA : x ∈ (assign_groups pick cl req n).getD (g - 1) [] := by
        unfold assign_groups
        exact mem_getD_distribute_overflow _ _ 0 (g - 1) x hxCH
      have hxn : x < n := by
        have hxm : x ∈ cluster_members cl n (g - 1) := hsub.1.subset hxmem
        exact ((mem_cluster_members cl n (g - 1) x).mp hxm).1
      have hcnt := assign_groups_countMem pick hpick cl req n x hxn
      have hgof : group_of (assign_groups pick cl req n) x = some (1 + (g - 1)) := by
        unfold group_of
        exact group_of_aux_eq_of_unique x (assign_groups pick cl req n) 1 none (g - 1)
          (by rw [hAlen]; exact hj) hxA hcnt
      refine ⟨x, hxn, ?_⟩
      rw [hgof]
      congr 1
      omega
  rw [hset, Nat.card_Icc]
  omega

/-- Witness for C5 at a concrete cohort, clustering and selection. -/
theorem assign_groups_group_count_witness :
    PickSound pickFirst ∧ (1 : ℕ) ≤ 3 ∧ 1 ≤ rqW.team_size ∧
      ClusterSurjective (fun i => i % 2) (num_groups rqW 3) 3 ∧
      (((List.range 3).filterMap
            (group_of (assign_groups pickFirst (fun i => i % 2) rqW 3))).toFinset.card
          = num_groups rqW 3 ∧
        num_groups rqW 3 = max 1 (min rqW.num_teams 3) ∧
        (3 ≤ rqW.num_teams → num_groups rqW 3 = 3)) :=
  ⟨pickFirst_sound, by decide, by decide, by decide,
    assign_groups_group_count pickFirst (fun i => i % 2) rqW 3 pickFirst_sound (by decide)
      (by decide) (by decide)⟩

end TeamFormations
